import Mathlib

/-!
Verification of the rin/router module (src/unnamed/part_000).

JavaScript strings are modelled as `List Char` (`JStr`).  Machine facilities
used by the source (String.prototype.indexOf / lastIndexOf / substr / trim /
split / replace, RegExp matching for the regexes the router itself builds,
and Array.prototype.sort with its ES2019 stability guarantee) are embedded
as executable Lean functions below.  Loops of the source that are not
structurally recursive are given an explicit fuel argument whose initial
value provably dominates the loop variant, so that every definition is
computable by kernel reduction.
-/

set_option maxRecDepth 4096

/-- JavaScript strings as lists of characters. -/
abbrev JStr := List Char

/-- The WhiteSpace and LineTerminator set recognised by
JavaScript String.prototype.trim. -/
def jsIsWS (c : Char) : Bool :=
  c = '\t' || c.val = 0x0b || c.val = 0x0c || c = ' ' || c.val = 0xa0 ||
  c.val = 0xfeff || c = '\n' || c = '\r' || c.val = 0x2028 || c.val = 0x2029 ||
  c.val = 0x1680 || (0x2000 ≤ c.val && c.val ≤ 0x200a) || c.val = 0x202f ||
  c.val = 0x205f || c.val = 0x3000

/-- JavaScript String.prototype.trim: drop leading and trailing whitespace. -/
def jsTrim (l : JStr) : JStr :=
  ((l.dropWhile jsIsWS).reverse.dropWhile jsIsWS).reverse

/-- JavaScript String.prototype.split with a one-character separator:
"".split is [""], "a/b".split("/") is ["a","b"]. -/
def jsSplit (sep : Char) : JStr → List JStr
  | [] => [[]]
  | c :: rest =>
    if c = sep then [] :: jsSplit sep rest
    else
      match jsSplit sep rest with
      | [] => [[c]]
      | h :: t => (c :: h) :: t

/-- Index of the first occurrence of a character in a list, if any. -/
def jsIndexOfAux (c : Char) : JStr → Option Nat
  | [] => none
  | x :: xs => if x = c then some 0 else (jsIndexOfAux c xs).map (fun n => n + 1)

/-- JavaScript s.indexOf(c, j): first occurrence of c at index j or later. -/
def jsIndexOfFrom (s : JStr) (c : Char) (j : Nat) : Option Nat :=
  (jsIndexOfAux c (s.drop j)).map (fun n => n + j)

/-- JavaScript s.lastIndexOf(c): last occurrence of c anywhere in s. -/
def jsLastIndexOf (s : JStr) (c : Char) : Option Nat :=
  (jsIndexOfAux c s.reverse).map (fun n => s.length - 1 - n)

/-- The states of the realLocation scanning automaton (the `state` variable
of the source; the halting state -1 is modelled by returning directly). -/
inductive RLState where
  | s0 | s1 | s2 | s3
deriving DecidableEq

/-- One-to-one embedding of the while loop of `realLocation`
(src/unnamed/part_000 lines 316-378); `i` scans the template `T`
(cLocation), `j` scans the context `P` (pLocation), `acc` is `rLocation`.
The fuel argument makes the recursion structural: every iteration strictly
decreases the variant 3*(T.length - i) + w(state) with w(s0)=0, w(s1)=2,
w(s2)=w(s3)=1, so any fuel above 3*T.length + 2 is never exhausted when
starting in s0 at i = 0.  When fuel runs out the function returns the same
value as a normal guard exit. -/
def rlGoF (T P : JStr) : Nat → RLState → Nat → Nat → JStr → JStr
  | 0, _, i, _, acc => acc ++ T.drop i
  | fuel + 1, st, i, j, acc =>
    if h : i < T.length ∧ j < P.length then
      match st with
      | .s0 =>
        let c := T.get ⟨i, h.1⟩
        if c = '*' then rlGoF T P fuel .s1 (i + 1) j acc
        else if c ≠ P.get ⟨j, h.2⟩ then acc ++ T.drop i
        else rlGoF T P fuel .s0 (i + 1) (j + 1) (acc ++ [P.get ⟨j, h.2⟩])
      | .s1 =>
        if T.get ⟨i, h.1⟩ = '*' then rlGoF T P fuel .s3 (i + 1) j acc
        else rlGoF T P fuel .s2 i j acc
      | .s2 =>
        let c := T.get ⟨i, h.1⟩
        match jsIndexOfFrom P c j with
        | none => acc ++ P.drop j ++ T.drop i
        | some k => rlGoF T P fuel .s0 i k (acc ++ (P.drop j).take (k - j))
      | .s3 =>
        let c := T.get ⟨i, h.1⟩
        match jsLastIndexOf P c with
        | none => acc ++ T.drop i
        | some k => rlGoF T P fuel .s0 i k (acc ++ (P.drop j).take (k - j))
    else acc ++ T.drop i

/-- `realLocation(cLocation, pLocation)` after the defaulting of pLocation:
run the automaton from state 0 and trim the result
(src/unnamed/part_000 lines 308-384). -/
def realLocation (T P : JStr) : JStr :=
  jsTrim (rlGoF T P (3 * T.length + 2) .s0 0 0 [])

/-- The defaulting of the pLocation argument: both call sites omit it, so it
falls back to the stored location, or to a single space when that is empty. -/
def jsDefault (p : JStr) : JStr := if p = [] then [' '] else p

/-- Characters allowed in a parameter name: the class [!@A-Za-z0-9_-] of the
token regex in `_compileRoute` (src/unnamed/part_000 line 82). -/
def isNameChar (c : Char) : Bool :=
  c = '!' || c = '@' || ('A' ≤ c && c ≤ 'Z') || ('a' ≤ c && c ≤ 'z') ||
  ('0' ≤ c && c ≤ '9') || c = '_' || c = '-'

/-- The capture group text "([^/]+)" substituted for each `:name` token. -/
def grpChars : JStr := ['(', '[', '^', '/', ']', '+', ')']

/-- The `_compileRoute` rewriting loop (src/unnamed/part_000 lines 80-87):
repeatedly find the leftmost `:name` token (a colon followed by a nonempty
maximal run of name characters), replace it by the capture group text and
record the name.  The JS loop re-executes the token regex on the whole
string after each replacement, but a replacement can never create a token
at or before its own position (the group text contains no colon and the
prefix was token-free), so the left-to-right scan below is equivalent.
The fuel argument (initially the string length, which bounds every
recursive call) makes the recursion structural. -/
def compileAuxF : Nat → JStr → JStr × List JStr
  | 0, l => (l, [])
  | _ + 1, [] => ([], [])
  | fuel + 1, ':' :: rest =>
    let name := rest.takeWhile isNameChar
    if name = [] then
      (':' :: (compileAuxF fuel rest).1, (compileAuxF fuel rest).2)
    else
      (grpChars ++ (compileAuxF fuel (rest.drop name.length)).1,
       name :: (compileAuxF fuel (rest.drop name.length)).2)
  | fuel + 1, c :: rest => (c :: (compileAuxF fuel rest).1, (compileAuxF fuel rest).2)

/-- Token replacement on a whole route string. -/
def compileAux (l : JStr) : JStr × List JStr := compileAuxF l.length l

/-- JavaScript route.replace(RegExp("##","g"), ""): delete every
non-overlapping "##" pair, scanning left to right
(src/unnamed/part_000 line 89). -/
def stripHashes : JStr → JStr
  | [] => []
  | [c] => [c]
  | c1 :: c2 :: t =>
    if c1 = '#' ∧ c2 = '#' then stripHashes t
    else c1 :: stripHashes (c2 :: t)

/-- Modelled from the spec: the `:name` tokens of a pattern in left-to-right
order of appearance (spec section 4.1 and section 8), written independently
of `_compileRoute` so the compiled parameter list can be compared to it. -/
def specParamTokensF : Nat → JStr → List JStr
  | 0, _ => []
  | _ + 1, [] => []
  | fuel + 1, ':' :: rest =>
    let name := rest.takeWhile isNameChar
    if name = [] then specParamTokensF fuel rest
    else name :: specParamTokensF fuel (rest.drop name.length)
  | fuel + 1, _ :: rest => specParamTokensF fuel rest

/-- The `:name` tokens of a pattern in order of appearance. -/
def specParamTokens (l : JStr) : List JStr := specParamTokensF l.length l

/-- A character with no special meaning inside a JavaScript regular
expression.  The compiled route string is interpreted by RegExp at dispatch
time, so pattern characters outside this set change the matching semantics
(or make the regex invalid). -/
def plainChar (c : Char) : Bool :=
  !(c = '.' || c = '*' || c = '+' || c = '?' || c = '(' || c = ')' ||
    c = '[' || c = ']' || c = '\x7b' || c = '\x7d' || c = '|' || c = '^' ||
    c = '$' || c = '\\')

/-- Tokens of the compiled route regular expressions: a literal character,
the '.' metacharacter, or the capture group "([^/]+)". -/
inductive RTok where
  | lit (c : Char)
  | any
  | param
deriving DecidableEq

/-- Reads the body of a compiled route regex back into tokens: the exact
group text "([^/]+)" is a capture group, '.' matches any non-line-terminator
character, anything else is a literal.  Faithful to RegExp for regex strings
made of plain characters and generated groups, which is the scope of every
theorem below that involves matching. -/
def parseRegex : JStr → List RTok
  | [] => []
  | '(' :: '[' :: '^' :: '/' :: ']' :: '+' :: ')' :: rest => .param :: parseRegex rest
  | '.' :: rest => .any :: parseRegex rest
  | c :: rest => .lit c :: parseRegex rest

/-- Characters the JavaScript '.' metacharacter does not match. -/
def jsDotExcluded (c : Char) : Bool :=
  c = '\n' || c = '\r' || c.val = 0x2028 || c.val = 0x2029

/-- Greedy backtracking for one "([^/]+)" group: try the longest candidate
first (n is the remaining candidate length), exactly the backtracking order
of the RegExp engine for this group shape. -/
def tryParam (g : JStr → Option (List JStr)) (ds : JStr) : Nat → Option (List JStr)
  | 0 => none
  | n + 1 =>
    match g (ds.drop (n + 1)) with
    | some caps => some (ds.take (n + 1) :: caps)
    | none => tryParam g ds n

/-- Anchored matching of a token list against a prefix of the input,
returning the list of captured values in group order. -/
def matchToks : List RTok → JStr → Option (List JStr)
  | [] => fun _ => some []
  | .lit c :: ts => fun ds =>
    match ds with
    | [] => none
    | d :: ds' => if d = c then matchToks ts ds' else none
  | .any :: ts => fun ds =>
    match ds with
    | [] => none
    | d :: ds' => if jsDotExcluded d then none else matchToks ts ds'
  | .param :: ts => fun ds =>
    tryParam (matchToks ts) ds (ds.takeWhile (fun c => c ≠ '/')).length

/-- Executes a compiled route regex against a location.  Every regex the
router builds starts with the '^' anchor, so matching means matching the
remaining tokens against a prefix of the location; the captures are the
values of the groups in order (the matches array entries 1, 2, ...). -/
def regexExec (rx : JStr) (loc : JStr) : Option (List JStr) :=
  matchToks (parseRegex (rx.drop 1)) loc

/-- An event emitted by a route dispatch.  The JS arguments object always
also carries a `route` field referring to the route itself; the args list
here holds the per-parameter entries in assignment order. -/
structure REvent where
  name : String
  args : List (JStr × JStr)
deriving DecidableEq

/-- The state of one Route object (src/unnamed/part_000 lines 26-148).
The handler id lists stand for the listener lists of the two event
channels.  Modelled from the spec: the EventDispatcher base class from
the @rsthn/rin package is not part of src; per spec sections 4.1 and 6 its
channels are ordered listener lists with addition at the end and removal
by handler identity. -/
structure Route where
  value : JStr
  routeRegex : JStr
  params : List JStr
  s_args : Option JStr
  active : Bool
  changed : Bool
  routedHandlers : List Nat
  unroutedHandlers : List Nat
deriving DecidableEq

/-- `new Route(route)`: compile the expression, strip the "##" markers and
prepend the '^' anchor (src/unnamed/part_000 lines 64-90). -/
def mkRoute (route : JStr) : Route :=
  { value := route
    routeRegex := '^' :: stripHashes (compileAux route).1
    params := (compileAux route).2
    s_args := none
    active := false
    changed := false
    routedHandlers := []
    unroutedHandlers := [] }

/-- The signature string built by the dispatch loop: one "_" plus the
captured value per parameter entry. -/
def sigOf (pairs : List (JStr × JStr)) : JStr :=
  pairs.foldl (fun a pc => a ++ '_' :: pc.2) []

/-- Route.dispatch (src/unnamed/part_000 lines 120-148).  Returns the new
route state, the returned boolean (the new `active`) and the emitted
events.  On a match the arguments record gains params[i] ↦ matches[i+1]
while the signature accumulates "_" + matches[i+1]; `changed` compares the
new signature to the stored one before it is overwritten. -/
def Route.dispatch (r : Route) (loc : JStr) : Route × Bool × List REvent :=
  match regexExec r.routeRegex loc with
  | none =>
    ({ r with s_args := none, active := false }, false,
      if r.active then [{ name := "unrouted", args := [] }] else [])
  | some caps =>
    let pairs := r.params.zip caps
    let str := sigOf pairs
    ({ r with changed := decide (¬ r.s_args = some str),
              s_args := some str, active := true }, true,
      [{ name := "routed", args := pairs }])

/-- Route.addHandler (src/unnamed/part_000 lines 99-102): append to the
routed or unrouted channel. -/
def Route.addHandler (r : Route) (h : Nat) (unrouted : Bool) : Route :=
  if unrouted then { r with unroutedHandlers := r.unroutedHandlers ++ [h] }
  else { r with routedHandlers := r.routedHandlers ++ [h] }

/-- Route.removeHandler (src/unnamed/part_000 lines 109-112).  Modelled
from the spec: removal from a channel matches by handler identity. -/
def Route.removeHandler (r : Route) (h : Nat) (unrouted : Bool) : Route :=
  if unrouted then
    { r with unroutedHandlers := r.unroutedHandlers.filter (fun x => x ≠ h) }
  else { r with routedHandlers := r.routedHandlers.filter (fun x => x ≠ h) }

/-- The router singleton state (src/unnamed/part_000 lines 154-175 plus the
platform location hash it reads and writes).  `routes` is the JS object
used as a map, kept in key insertion order; `hash` is the fragment after
'#' of the platform location. -/
structure RouterState where
  routes : List (JStr × Route)
  sortedRoutes : List JStr
  ignoreHashchangeEvent : Nat
  location : JStr
  args : List JStr
  hash : JStr

/-- The initial router state. -/
def initRouter : RouterState :=
  { routes := [], sortedRoutes := [], ignoreHashchangeEvent := 0,
    location := [], args := [], hash := [] }

/-- Property lookup in the routes object (own keys only). -/
def alookup (k : JStr) : List (JStr × Route) → Option Route
  | [] => none
  | p :: t => if p.1 = k then some p.2 else alookup k t

/-- Replace the value stored under a key of the routes object. -/
def updateAssoc (l : List (JStr × Route)) (k : JStr) (f : Route → Route) :
    List (JStr × Route) :=
  l.map (fun p => if p.1 = k then (p.1, f p.2) else p)

/-- Stable insertion of a key into a list sorted by ascending measure:
the new element goes after every element of measure less than or equal to
its own. -/
def insertByLen (f : JStr → Nat) (x : JStr) : List JStr → List JStr
  | [] => [x]
  | y :: ys => if f x < f y then x :: y :: ys else y :: insertByLen f x ys

/-- Array.prototype.sort with the comparator
routes[a].routeRegex.length - routes[b].routeRegex.length
(src/unnamed/part_000 lines 230-232): a stable sort by ascending measure,
modelled as left-to-right insertion, which keeps equal-measure elements in
their original order exactly as the ES2019 stable sort does. -/
def jsStableSort (f : JStr → Nat) (l : List JStr) : List JStr :=
  l.foldl (fun acc x => insertByLen f x acc) []

/-- The sort measure read from the routes object: the length of the stored
compiled regex. -/
def lenOf (routes : List (JStr × Route)) (k : JStr) : Nat :=
  match alookup k routes with
  | some r => r.routeRegex.length
  | none => 0

/-- The compiled regex length of a pattern; every stored route is created
by `mkRoute` on its own key, so this is the measure the comparator sees. -/
def rlen (k : JStr) : Nat := (mkRoute k).routeRegex.length

/-- this.routes[route].addHandler(h, unrouted) on the table. -/
def addHandlerTo (s : RouterState) (route : JStr) (h : Nat) (unrouted : Bool) :
    RouterState :=
  { s with routes := updateAssoc s.routes route (fun r => r.addHandler h unrouted) }

/-- addRoute (src/unnamed/part_000 lines 223-242): get-or-create the entry,
re-sorting the key array only on creation, then register the handlers. -/
def addRoute (s : RouterState) (route : JStr) (onRoute : Nat)
    (onUnroute : Option Nat) : RouterState :=
  let s1 :=
    match alookup route s.routes with
    | some _ => s
    | none =>
      let routes2 := s.routes ++ [(route, mkRoute route)]
      { s with routes := routes2,
               sortedRoutes := jsStableSort (lenOf routes2) (s.sortedRoutes ++ [route]) }
  match onUnroute with
  | some hu => addHandlerTo (addHandlerTo s1 route onRoute false) route hu true
  | none => addHandlerTo s1 route onRoute false

/-- The creation loop of addRoutes (src/unnamed/part_000 lines 252-261):
create missing entries without sorting, registering each handler on the
routed channel. -/
def addRoutesLoop (s : RouterState) : List (JStr × Nat) → RouterState
  | [] => s
  | (p, h) :: rest =>
    let s1 :=
      match alookup p s.routes with
      | some _ => s
      | none => { s with routes := s.routes ++ [(p, mkRoute p)],
                         sortedRoutes := s.sortedRoutes ++ [p] }
    addRoutesLoop (addHandlerTo s1 p h false) rest

/-- addRoutes (src/unnamed/part_000 lines 250-266): create and register,
then sort the key array once. -/
def addRoutes (s : RouterState) (m : List (JStr × Nat)) : RouterState :=
  let s1 := addRoutesLoop s m
  { s1 with sortedRoutes := jsStableSort (lenOf s1.routes) s1.sortedRoutes }

/-- removeRoute (src/unnamed/part_000 lines 274-285): unregister handlers;
the entry and its slot in the key array are never touched. -/
def removeRoute (s : RouterState) (route : JStr) (onRoute : Nat)
    (onUnroute : Option Nat) : RouterState :=
  match alookup route s.routes with
  | none => s
  | some _ =>
    match onUnroute with
    | some hu =>
      let rts := updateAssoc
        (updateAssoc s.routes route (fun r => r.removeHandler onRoute false))
        route (fun r => r.removeHandler hu true)
      { s with routes := rts }
    | none =>
      let rts := updateAssoc s.routes route (fun r => r.removeHandler onRoute false)
      { s with routes := rts }

/-- removeRoutes (src/unnamed/part_000 lines 293-301). -/
def removeRoutes (s : RouterState) : List (JStr × Nat) → RouterState
  | [] => s
  | (p, h) :: rest =>
    removeRoutes
      (match alookup p s.routes with
       | none => s
       | some _ =>
         let rts := updateAssoc s.routes p (fun r => r.removeHandler h false)
         { s with routes := rts })
      rest

/-- One registration-phase operation on the router. -/
inductive TableOp where
  | add (pattern : JStr) (h : Nat) (hu : Option Nat)
  | adds (m : List (JStr × Nat))
  | remove (pattern : JStr) (h : Nat) (hu : Option Nat)
  | removes (m : List (JStr × Nat))

/-- Apply one registration operation. -/
def applyOp (s : RouterState) : TableOp → RouterState
  | .add p h hu => addRoute s p h hu
  | .adds m => addRoutes s m
  | .remove p h hu => removeRoute s p h hu
  | .removes m => removeRoutes s m

/-- Apply a sequence of registration operations to the initial router. -/
def applyOps (ops : List TableOp) : RouterState :=
  ops.foldl applyOp initRouter

/-- this.routes[key].dispatch(location): replace the stored route state by
the result of its dispatch.  A key with no entry would be a TypeError in
JS; it is unreachable from the router operations and left as a no-op. -/
def tableDispatch (s : RouterState) (key loc : JStr) : RouterState :=
  match alookup key s.routes with
  | none => s
  | some r => { s with routes := updateAssoc s.routes key (fun _ => (r.dispatch loc).1) }

/-- The dispatch loop of onLocationChanged (src/unnamed/part_000 lines
409-410): an index loop over the LIVE sortedRoutes array.  `eff` stands for
whatever the handlers fired by a dispatch do to the router state (the
identity when no handler mutates the table).  The returned list records the
keys on which dispatch was called.  The JS loop can diverge if handlers
keep growing the array, hence the fuel; with the identity effect a fuel of
sortedRoutes.length is exact, and exhausted fuel returns like a normal
exit. -/
def dispatchPass (eff : JStr → RouterState → RouterState) (loc : JStr) :
    Nat → RouterState → Nat → RouterState × List JStr
  | 0, s, _ => (s, [])
  | fuel + 1, s, i =>
    if i < s.sortedRoutes.length then
      let key := s.sortedRoutes.getD i []
      let s1 := eff key (tableDispatch s key loc)
      let res := dispatchPass eff loc fuel s1 (i + 1)
      (res.1, key :: res.2)
    else (s, [])

/-- The handler effect when no handler mutates the router. -/
def noEff : JStr → RouterState → RouterState := fun _ s => s

/-- The full dispatch pass with mutation-free handlers. -/
def dispatchAll (s : RouterState) (loc : JStr) : RouterState × List JStr :=
  dispatchPass noEff loc s.sortedRoutes.length s 0

/-- onLocationChanged (src/unnamed/part_000 lines 389-411): reconcile the
raw hash against the stored location; redirect without committing when
they differ; otherwise commit location and args, then either consume one
suppressed cycle or dispatch every route.  The list records the dispatched
keys. -/
def onLocationChanged (s : RouterState) : RouterState × List JStr :=
  let c := s.hash
  let r := realLocation c (jsDefault s.location)
  if c ≠ r then ({ s with hash := r }, [])
  else
    let s1 := { s with location := c, args := jsSplit '/' c }
    if 0 < s1.ignoreHashchangeEvent then
      ({ s1 with ignoreHashchangeEvent := s1.ignoreHashchangeEvent - 1 }, [])
    else dispatchAll s1 c

/-- setRoute (src/unnamed/part_000 lines 208-215): reconcile the target, do
nothing if it is already current, otherwise bump the suppress counter when
silent and write the platform hash. -/
def setRoute (s : RouterState) (route : JStr) (silent : Bool) : RouterState :=
  let location := realLocation route (jsDefault s.location)
  if location = s.location then s
  else
    let s1 :=
      if silent then
        { s with ignoreHashchangeEvent := s.ignoreHashchangeEvent + 1 }
      else s
    { s1 with hash := location }

/-! ## Claim theorems -/

/-- C1: the location reconciler evaluates the two worked examples of the
spec: reconciling template "*/5" against context "users/3" yields
"users/5", and reconciling template "*/edit" against context "a/b/c"
yields "a/edit". -/
theorem c1_realLocation_examples :
    realLocation "*/5".toList "users/3".toList = "users/5".toList ∧
    realLocation "*/edit".toList "a/b/c".toList = "a/edit".toList := by
  constructor <;> decide

/-- C2 counterexample: on the route ":x/:y", dispatching "a/b_c" and then
"a_b/c" are two consecutive matching dispatches whose captured values
differ (["a","b_c"] versus ["a_b","c"]), yet the second dispatch reports
changed = false, because both signatures are "_a_b_c": the separator "_"
also occurs inside captured values. -/
theorem c2_counterexample :
    ((mkRoute ":x/:y".toList).dispatch "a/b_c".toList).2.1 = true ∧
    ((((mkRoute ":x/:y".toList).dispatch "a/b_c".toList).1.dispatch
        "a_b/c".toList).2.1 = true) ∧
    regexExec (mkRoute ":x/:y".toList).routeRegex "a/b_c".toList =
      some ["a".toList, "b_c".toList] ∧
    regexExec (mkRoute ":x/:y".toList).routeRegex "a_b/c".toList =
      some ["a_b".toList, "c".toList] ∧
    ¬ (["a".toList, "b_c".toList] : List JStr) = ["a_b".toList, "c".toList] ∧
    ((((mkRoute ":x/:y".toList).dispatch "a/b_c".toList).1.dispatch
        "a_b/c".toList).1.changed = false) := by
  refine ⟨by decide, by decide, by decide, by decide, by decide, by decide⟩

/-- C2 amended: for two consecutive matching dispatches the changed flag is
true precisely when the signature of the new captures (the values prefixed
by "_" and concatenated) differs from the signature of the previous ones;
in particular a second dispatch of the same location reports
changed = false. -/
theorem c2_changed_iff_signature (r : Route) (loc1 loc2 : JStr)
    (caps1 caps2 : List JStr)
    (h1 : regexExec r.routeRegex loc1 = some caps1)
    (h2 : regexExec r.routeRegex loc2 = some caps2) :
    (((r.dispatch loc1).1.dispatch loc2).1.changed
        = decide (¬ sigOf (r.params.zip caps1) = sigOf (r.params.zip caps2))) ∧
    (loc2 = loc1 → ((r.dispatch loc1).1.dispatch loc2).1.changed = false) := by
  have e1 : (r.dispatch loc1).1 =
      { r with changed := decide (¬ r.s_args = some (sigOf (r.params.zip caps1))),
               s_args := some (sigOf (r.params.zip caps1)), active := true } := by
    simp [Route.dispatch, h1]
  have e2 : ((r.dispatch loc1).1).routeRegex = r.routeRegex := by rw [e1]
  have e3 : ((r.dispatch loc1).1).params = r.params := by rw [e1]
  constructor
  · rw [Route.dispatch, e2, h2, e3, e1]
    simp [eq_comm]
  · intro h
    subst h
    rw [Route.dispatch, e2, h2, e3, e1]
    have hc : caps2 = caps1 := by rw [h1] at h2; exact (Option.some_inj.mp h2).symm
    subst hc
    simp

/-- C2 witness: dispatching the route ":x/:y" twice with the same matching
location "a/b" yields changed = false the second time. -/
theorem c2_witness :
    (((mkRoute ":x/:y".toList).dispatch "a/b".toList).1.dispatch
        "a/b".toList).1.changed = false :=
  (c2_changed_iff_signature (mkRoute ":x/:y".toList) "a/b".toList "a/b".toList
    ["a".toList, "b".toList] ["a".toList, "b".toList]
    (by decide) (by decide)).2 rfl

/-- C3 counterexample: the pattern "a##b" has no `:name` token, yet its
dispatch matches the location "ab" (which does not start with "a##b"),
because compilation strips the "##" marker; and the pattern "." (also
token-free) matches the location "x", because the dot is a regex
metacharacter, not a literal. -/
theorem c3_counterexample :
    (((mkRoute "a##b".toList).dispatch "ab".toList).2.1 = true ∧
      "a##b".toList.isPrefixOf "ab".toList = false) ∧
    (((mkRoute ".".toList).dispatch "x".toList).2.1 = true ∧
      ".".toList.isPrefixOf "x".toList = false) := by
  refine ⟨⟨by decide, by decide⟩, by decide, by decide⟩

theorem compileAuxF_cons (fuel : Nat) (c : Char) (rest : JStr) (hc : ¬ c = ':') :
    compileAuxF (fuel + 1) (c :: rest) =
      (c :: (compileAuxF fuel rest).1, (compileAuxF fuel rest).2) := by
  rw [compileAuxF.eq_def]
  split <;> simp_all

theorem specParamTokensF_cons (fuel : Nat) (c : Char) (rest : JStr) (hc : ¬ c = ':') :
    specParamTokensF (fuel + 1) (c :: rest) = specParamTokensF fuel rest := by
  rw [specParamTokensF.eq_def]
  split <;> simp_all

theorem specParamTokensF_nil_compile :
    ∀ fuel l, specParamTokensF fuel l = [] → compileAuxF fuel l = (l, []) := by
  intro fuel l
  induction fuel, l using compileAuxF.induct with
  | case1 l => intro _; rfl
  | case2 n => intro _; rfl
  | case3 fuel rest name hn ih =>
    intro h
    rw [specParamTokensF] at h
    simp only [if_pos hn] at h
    rw [compileAuxF]
    simp only [if_pos hn]
    rw [ih h]
  | case4 fuel rest name hn ih =>
    intro h
    rw [specParamTokensF] at h
    simp only [if_neg hn] at h
    exact absurd h (List.cons_ne_nil _ _)
  | case5 fuel c rest hc ih =>
    intro h
    rw [specParamTokensF_cons fuel c rest (fun e => hc e)] at h
    rw [compileAuxF_cons fuel c rest (fun e => hc e), ih h]

theorem stripHashes_subset : ∀ l : JStr, ∀ c ∈ stripHashes l, c ∈ l := by
  intro l
  induction l using stripHashes.induct with
  | case1 => intro c hc; exact absurd hc (by simp [stripHashes])
  | case2 d => intro c hc; rw [stripHashes] at hc; simpa using hc
  | case3 c1 c2 t hh ih =>
    intro c hc
    rw [stripHashes, if_pos hh] at hc
    exact List.mem_cons_of_mem _ (List.mem_cons_of_mem _ (ih c hc))
  | case4 c1 c2 t hh ih =>
    intro c hc
    rw [stripHashes, if_neg hh] at hc
    rcases List.mem_cons.mp hc with h | h
    · exact h ▸ List.mem_cons_self _ _
    · exact List.mem_cons_of_mem _ (ih c h)

theorem parseRegex_cons_lit (c : Char) (s : JStr) (h1 : ¬ c = '(') (h2 : ¬ c = '.') :
    parseRegex (c :: s) = .lit c :: parseRegex s := by
  rw [parseRegex.eq_def]
  split <;> simp_all

theorem parseRegex_all_lit : ∀ l : JStr, (∀ c ∈ l, plainChar c = true) →
    parseRegex l = l.map RTok.lit := by
  intro l
  induction l with
  | nil => intro _; rfl
  | cons c rest ih =>
    intro h
    have hc := h c (List.mem_cons_self _ _)
    rw [plainChar] at hc
    simp only [Bool.not_eq_true'] at hc
    rw [parseRegex_cons_lit c rest (by intro e; subst e; simp at hc)
      (by intro e; subst e; simp at hc)]
    rw [ih (fun x hx => h x (List.mem_cons_of_mem _ hx))]
    rfl

theorem matchToks_lits : ∀ (xs : JStr) (ds : JStr),
    matchToks (xs.map RTok.lit) ds = if xs.isPrefixOf ds then some [] else none := by
  intro xs
  induction xs with
  | nil => intro ds; simp [matchToks, List.isPrefixOf]
  | cons x xs ih =>
    intro ds
    match ds with
    | [] => simp [matchToks, List.isPrefixOf]
    | d :: ds' =>
      simp only [List.map_cons, matchToks, List.isPrefixOf]
      by_cases h : d = x
      · subst h
        simp [ih ds']
      · have hx : (x == d) = false := by
          simp only [beq_eq_false_iff_ne]
          exact fun e => h e.symm
        simp [h, hx]

/-- C3 amended: for a pattern with no `:name` token whose characters are
all free of regex meaning, dispatch matches a location exactly when the
location starts with the pattern after deletion of its "##" marker pairs;
compilation itself is pure string rewriting and never raises. -/
theorem c3_literal_matcher (P L : JStr) (hTok : specParamTokens P = [])
    (hPlain : ∀ c ∈ P, plainChar c = true) :
    (((mkRoute P).dispatch L).2.1 = true ↔ (stripHashes P).isPrefixOf L = true) := by
  have hcomp : compileAux P = (P, []) := specParamTokensF_nil_compile P.length P hTok
  have hrx : (mkRoute P).routeRegex = '^' :: stripHashes P := by
    rw [mkRoute, hcomp]
  have hexec : regexExec (mkRoute P).routeRegex L =
      (if (stripHashes P).isPrefixOf L then some [] else none) := by
    rw [regexExec, hrx]
    simp only [List.drop_succ_cons, List.drop_zero]
    rw [parseRegex_all_lit _ (fun c hc => hPlain c (stripHashes_subset P c hc)),
      matchToks_lits]
  rw [Route.dispatch, hexec]
  by_cases hp : (stripHashes P).isPrefixOf L = true
  · simp [hp]
  · simp [hp]

/-- C3 witness: the literal pattern "ab" matches the location "abc". -/
theorem c3_witness :
    ((mkRoute "ab".toList).dispatch "abc".toList).2.1 = true :=
  (c3_literal_matcher "ab".toList "abc".toList (by decide) (by decide)).mpr (by decide)

/-- C4: the dispatch loop of onLocationChanged iterates the LIVE
sortedRoutes array by index, not a snapshot.  With routes "bb" and "ccc"
registered (order ["bb","ccc"]) and the handler of "bb" adding the shorter
route "a" during the pass over location "bb", the re-sort moves "bb" to
index 1 and the loop calls dispatch on "bb" twice — not exactly once per
route of the starting order, contradicting the snapshot requirement of the
spec. -/
theorem c4_live_iteration_double_dispatch :
    (addRoute (addRoute initRouter "bb".toList 1 none) "ccc".toList 2
        none).sortedRoutes = ["bb".toList, "ccc".toList] ∧
    (dispatchPass
        (fun key t => if key = "bb".toList then addRoute t "a".toList 9 none else t)
        "bb".toList 5
        (addRoute (addRoute initRouter "bb".toList 1 none) "ccc".toList 2 none)
        0).2 = ["bb".toList, "bb".toList, "ccc".toList] := by
  refine ⟨by decide, by decide⟩

theorem jsIndexOfAux_eq_none (c : Char) :
    ∀ l : JStr, jsIndexOfAux c l = none ↔ ¬ c ∈ l := by
  intro l
  induction l with
  | nil => simp [jsIndexOfAux]
  | cons x xs ih =>
    rw [jsIndexOfAux]
    by_cases h : x = c
    · subst h
      simp
    · simp only [if_neg h, Option.map_eq_none', ih, List.mem_cons]
      constructor
      · intro hn hor
        rcases hor with e | e
        · exact h e.symm
        · exact hn e
      · intro hn e
        exact hn (Or.inr e)

/-- C8: location reconciliation is total: `realLocation` is defined for
every template and context and always returns a string (first conjunct, its
defining equation).  When the automaton is in the single-wildcard state s2
and the anchor character (the template character at i) does not occur in
the context at or after position j, it appends the context remainder and
then the template remainder and halts; in the double-wildcard state s3,
when the anchor occurs nowhere in the context, it appends only the template
remainder and halts. -/
theorem c8_reconciler_fallbacks (T P : JStr) (i j : Nat) (acc : JStr)
    (fuel : Nat) (hi : i < T.length) (hj : j < P.length) :
    realLocation T P = jsTrim (rlGoF T P (3 * T.length + 2) .s0 0 0 []) ∧
    (¬ T.get ⟨i, hi⟩ ∈ P.drop j →
      rlGoF T P (fuel + 1) .s2 i j acc = acc ++ P.drop j ++ T.drop i) ∧
    (¬ T.get ⟨i, hi⟩ ∈ P →
      rlGoF T P (fuel + 1) .s3 i j acc = acc ++ T.drop i) := by
  refine ⟨rfl, ?_, ?_⟩
  · intro hmem
    have hnone : jsIndexOfFrom P (T.get ⟨i, hi⟩) j = none := by
      rw [jsIndexOfFrom, (jsIndexOfAux_eq_none _ _).mpr hmem]
      rfl
    rw [rlGoF, dif_pos ⟨hi, hj⟩]
    simp only [hnone]
  · intro hmem
    have hnone : jsLastIndexOf P (T.get ⟨i, hi⟩) = none := by
      rw [jsLastIndexOf,
        (jsIndexOfAux_eq_none _ _).mpr (by simpa using hmem)]
      rfl
    rw [rlGoF, dif_pos ⟨hi, hj⟩]
    simp only [hnone]

theorem rl_nostar (T P : JStr) (hstar : ∀ c ∈ T, ¬ c = '*') :
    ∀ fuel i j acc, rlGoF T P fuel .s0 i j acc = acc ++ T.drop i := by
  intro fuel
  induction fuel with
  | zero => intro i j acc; rfl
  | succ n ih =>
    intro i j acc
    by_cases hg : i < T.length ∧ j < P.length
    · rw [rlGoF, dif_pos hg]
      have hc : ¬ T.get ⟨i, hg.1⟩ = '*' := hstar _ (List.get_mem T i hg.1)
      simp only [if_neg hc]
      by_cases he : T.get ⟨i, hg.1⟩ = P.get ⟨j, hg.2⟩
      · rw [if_neg (not_not_intro he)]
        rw [ih]
        rw [List.append_assoc]
        congr 1
        rw [List.drop_eq_getElem_cons hg.1, ← he]
        rfl
      · rw [if_pos he]
    · rw [rlGoF, dif_neg hg]

theorem tableDispatch_fields (s : RouterState) (key loc : JStr) :
    (tableDispatch s key loc).sortedRoutes = s.sortedRoutes ∧
    (tableDispatch s key loc).hash = s.hash ∧
    (tableDispatch s key loc).location = s.location ∧
    (tableDispatch s key loc).ignoreHashchangeEvent = s.ignoreHashchangeEvent ∧
    (tableDispatch s key loc).args = s.args := by
  rw [tableDispatch]
  cases alookup key s.routes <;> refine ⟨?_, ?_, ?_, ?_, ?_⟩ <;> trivial

theorem dispatchPass_noEff_fields (loc : JStr) :
    ∀ fuel s i,
      (dispatchPass noEff loc fuel s i).1.sortedRoutes = s.sortedRoutes ∧
      (dispatchPass noEff loc fuel s i).1.hash = s.hash ∧
      (dispatchPass noEff loc fuel s i).1.location = s.location ∧
      (dispatchPass noEff loc fuel s i).1.ignoreHashchangeEvent =
        s.ignoreHashchangeEvent ∧
      (dispatchPass noEff loc fuel s i).1.args = s.args := by
  intro fuel
  induction fuel with
  | zero => intro s i; refine ⟨?_, ?_, ?_, ?_, ?_⟩ <;> trivial
  | succ n ih =>
    intro s i
    rw [dispatchPass]
    by_cases hg : i < s.sortedRoutes.length
    · simp only [if_pos hg, noEff]
      have h1 := ih (tableDispatch s (s.sortedRoutes.getD i []) loc) (i + 1)
      have h2 := tableDispatch_fields s (s.sortedRoutes.getD i []) loc
      exact ⟨h1.1.trans h2.1, h1.2.1.trans h2.2.1, h1.2.2.1.trans h2.2.2.1,
        h1.2.2.2.1.trans h2.2.2.2.1, h1.2.2.2.2.trans h2.2.2.2.2⟩
    · simp only [if_neg hg]
      refine ⟨?_, ?_, ?_, ?_, ?_⟩ <;> trivial

/-- C10: every non-empty star-free trim-stable string L is a fixed point of
reconciliation — against itself and in fact against any context — so a
location-changed notification carrying such a hash always commits it
(location becomes L, the platform hash is left untouched, no redirect). -/
theorem c10_fixed_point (L ctx : JStr) (s : RouterState)
    (h0 : ¬ L = []) (h1 : ∀ c ∈ L, ¬ c = '*') (h2 : jsTrim L = L) :
    realLocation L L = L ∧ realLocation L ctx = L ∧
    (s.hash = L →
      (onLocationChanged s).1.location = L ∧ (onLocationChanged s).1.hash = L) := by
  have key : ∀ Q : JStr, realLocation L Q = L := by
    intro Q
    rw [realLocation, rl_nostar L Q h1]
    simpa using h2
  refine ⟨key L, key ctx, ?_⟩
  intro hh
  rw [onLocationChanged]
  simp only [hh, key (jsDefault s.location), ne_eq, not_true_eq_false, if_false,
    reduceIte]
  by_cases hs : 0 < s.ignoreHashchangeEvent
  · simp only [if_pos hs]
    refine ⟨?_, ?_⟩ <;> trivial
  · simp only [if_neg hs]
    rw [dispatchAll]
    have hp := dispatchPass_noEff_fields L
      ({ s with location := L, args := jsSplit '/' L, hash := L } : RouterState).sortedRoutes.length
      { s with location := L, args := jsSplit '/' L, hash := L } 0
    exact ⟨hp.2.2.1.trans (by rfl), hp.2.1.trans (by rfl)⟩

/-- C8 witness: template "a/x" against context "bb" from the wildcard
states with anchor character a missing from the context. -/
theorem c8_witness :
    rlGoF "a/x".toList "bb".toList 5 .s2 0 0 [] = "bba/x".toList ∧
    rlGoF "a/x".toList "bb".toList 5 .s3 0 0 [] = "a/x".toList := by
  have h := c8_reconciler_fallbacks "a/x".toList "bb".toList 0 0 [] 4
    (by decide) (by decide)
  exact ⟨(h.2.1 (by decide)).trans (by decide), (h.2.2 (by decide)).trans (by decide)⟩

/-- C10 witness: "users/3" reconciles to itself against itself. -/
theorem c10_witness :
    realLocation "users/3".toList "users/3".toList = "users/3".toList :=
  (c10_fixed_point "users/3".toList "a".toList initRouter
    (by decide) (by decide) (by decide)).1

theorem alookup_update_self (l : List (JStr × Route)) (k : JStr) (f : Route → Route) :
    alookup k (updateAssoc l k f) = (alookup k l).map f := by
  induction l with
  | nil => rfl
  | cons p t ih =>
    by_cases h : p.1 = k
    · simp [updateAssoc, alookup, h]
    · simp only [updateAssoc, List.map_cons, if_neg h, alookup]
      exact ih

theorem alookup_update_ne (l : List (JStr × Route)) (k k2 : JStr)
    (f : Route → Route) (h : ¬ k2 = k) :
    alookup k (updateAssoc l k2 f) = alookup k l := by
  induction l with
  | nil => rfl
  | cons p t ih =>
    by_cases h2 : p.1 = k2
    · have hpk : ¬ p.1 = k := fun e => h (h2 ▸ e ▸ rfl)
      simp only [updateAssoc, List.map_cons, if_pos h2, alookup, if_neg hpk]
      exact ih
    · simp only [updateAssoc, List.map_cons, if_neg h2, alookup]
      by_cases h3 : p.1 = k
      · rw [if_pos h3, if_pos h3]
      · rw [if_neg h3, if_neg h3]
        exact ih

theorem tableDispatch_alookup_ne (s : RouterState) (key key2 loc : JStr)
    (h : ¬ key2 = key) :
    alookup key (tableDispatch s key2 loc).routes = alookup key s.routes := by
  cases h2 : alookup key2 s.routes with
  | none => rw [tableDispatch, h2]
  | some r =>
    rw [tableDispatch, h2]
    show alookup key (updateAssoc s.routes key2 (fun _ => (r.dispatch loc).1)) = _
    exact alookup_update_ne s.routes key key2 _ h

theorem tableDispatch_alookup_self (s : RouterState) (key loc : JStr) (r : Route)
    (h : alookup key s.routes = some r) :
    alookup key (tableDispatch s key loc).routes = some ((r.dispatch loc).1) := by
  rw [tableDispatch, h]
  show alookup key (updateAssoc s.routes key (fun _ => (r.dispatch loc).1)) = _
  rw [alookup_update_self, h]
  rfl

theorem dispatchPass_trace (loc : JStr) :
    ∀ fuel i s, s.sortedRoutes.length ≤ i + fuel →
      (dispatchPass noEff loc fuel s i).2 = s.sortedRoutes.drop i := by
  intro fuel
  induction fuel with
  | zero =>
    intro i s h
    rw [dispatchPass, List.drop_eq_nil_iff_le.mpr (by omega)]
  | succ n ih =>
    intro i s h
    rw [dispatchPass]
    by_cases hg : i < s.sortedRoutes.length
    · simp only [if_pos hg, noEff]
      rw [ih (i + 1) (tableDispatch s (s.sortedRoutes.getD i []) loc)
        (by rw [(tableDispatch_fields s _ loc).1]; omega)]
      rw [(tableDispatch_fields s _ loc).1]
      rw [List.getD_eq_get s.sortedRoutes [] hg]
      exact (List.drop_eq_get_cons hg).symm
    · simp only [if_neg hg]
      rw [List.drop_eq_nil_iff_le.mpr (by omega)]

theorem dispatchPass_notin (loc key : JStr) :
    ∀ fuel i s, ¬ key ∈ s.sortedRoutes.drop i →
      alookup key (dispatchPass noEff loc fuel s i).1.routes = alookup key s.routes := by
  intro fuel
  induction fuel with
  | zero => intro i s _; rfl
  | succ n ih =>
    intro i s hnm
    rw [dispatchPass]
    by_cases hg : i < s.sortedRoutes.length
    · simp only [if_pos hg, noEff]
      have hdrop : s.sortedRoutes.drop i =
          s.sortedRoutes.getD i [] :: s.sortedRoutes.drop (i + 1) := by
        rw [List.getD_eq_get s.sortedRoutes [] hg]
        exact List.drop_eq_get_cons hg
      have hne : ¬ s.sortedRoutes.getD i [] = key := by
        intro e
        exact hnm (hdrop ▸ (e ▸ List.mem_cons_self _ _))
      have hnm2 : ¬ key ∈
          (tableDispatch s (s.sortedRoutes.getD i []) loc).sortedRoutes.drop (i + 1) := by
        rw [(tableDispatch_fields s _ loc).1]
        intro hc
        exact hnm (hdrop ▸ List.mem_cons_of_mem _ hc)
      rw [ih (i + 1) _ hnm2]
      exact tableDispatch_alookup_ne s key _ loc hne
    · simp only [if_neg hg]

theorem dispatchPass_entry (loc key : JStr) (r : Route) :
    ∀ fuel i s, s.sortedRoutes.length ≤ i + fuel →
      s.sortedRoutes.Nodup →
      key ∈ s.sortedRoutes.drop i →
      alookup key s.routes = some r →
      alookup key (dispatchPass noEff loc fuel s i).1.routes =
        some ((r.dispatch loc).1) := by
  intro fuel
  induction fuel with
  | zero =>
    intro i s hlen _ hmem _
    rw [List.drop_eq_nil_iff_le.mpr (by omega)] at hmem
    exact absurd hmem (List.not_mem_nil key)
  | succ n ih =>
    intro i s hlen hnd hmem hlook
    rw [dispatchPass]
    by_cases hg : i < s.sortedRoutes.length
    · simp only [if_pos hg, noEff]
      have hdrop : s.sortedRoutes.drop i =
          s.sortedRoutes.getD i [] :: s.sortedRoutes.drop (i + 1) := by
        rw [List.getD_eq_get s.sortedRoutes [] hg]
        exact List.drop_eq_get_cons hg
      by_cases hk : s.sortedRoutes.getD i [] = key
      · have hnotin : ¬ key ∈ s.sortedRoutes.drop (i + 1) := by
          have hsub := hnd.sublist (List.drop_sublist i s.sortedRoutes)
          rw [hdrop] at hsub
          rw [List.nodup_cons] at hsub
          exact hk ▸ hsub.1
        have hnotin2 : ¬ key ∈
            (tableDispatch s (s.sortedRoutes.getD i []) loc).sortedRoutes.drop (i + 1) := by
          rw [(tableDispatch_fields s _ loc).1]
          exact hnotin
        rw [dispatchPass_notin loc key n (i + 1) _ hnotin2]
        exact hk ▸ tableDispatch_alookup_self s _ loc r (hk ▸ hlook)
      · have hmem2 : key ∈ s.sortedRoutes.drop (i + 1) := by
          rw [hdrop] at hmem
          rcases List.mem_cons.mp hmem with e | e
          · exact absurd e.symm hk
          · exact e
        have htf := tableDispatch_fields s (s.sortedRoutes.getD i []) loc
        refine ih (i + 1) (tableDispatch s (s.sortedRoutes.getD i []) loc) ?_ ?_ ?_ ?_
        · rw [htf.1]; omega
        · rw [htf.1]; exact hnd
        · rw [htf.1]; exact hmem2
        · rw [tableDispatch_alookup_ne s key _ loc hk]
          exact hlook
    · simp only [if_neg hg]
      rw [List.drop_eq_nil_iff_le.mpr (by omega)] at hmem
      exact absurd hmem (List.not_mem_nil key)

/-- C6: a full dispatch pass calls dispatch on every registered route in
ascending order of the sorted key array with no first-match short-circuit:
the trace equals the whole order array, each entry ends up holding the
result of its own dispatch, and a route's new active flag equals its own
independent match result.  Concretely, with routes "/", "/a", "/a/:id"
added in that order the order array is ["/","/a","/a/:id"], dispatching
"/a/5" calls all three in that order, and all three end active. -/
theorem c6_dispatchAll_every_route (s : RouterState) (loc key : JStr) (r : Route)
    (hnd : s.sortedRoutes.Nodup) (hmem : key ∈ s.sortedRoutes)
    (hlook : alookup key s.routes = some r) :
    (dispatchAll s loc).2 = s.sortedRoutes ∧
    alookup key (dispatchAll s loc).1.routes = some ((r.dispatch loc).1) ∧
    (r.dispatch loc).1.active = (regexExec r.routeRegex loc).isSome ∧
    (addRoute (addRoute (addRoute initRouter "/".toList 0 none) "/a".toList 1
        none) "/a/:id".toList 2 none).sortedRoutes =
      ["/".toList, "/a".toList, "/a/:id".toList] ∧
    (dispatchAll (addRoute (addRoute (addRoute initRouter "/".toList 0 none)
        "/a".toList 1 none) "/a/:id".toList 2 none) "/a/5".toList).2 =
      ["/".toList, "/a".toList, "/a/:id".toList] ∧
    (dispatchAll (addRoute (addRoute (addRoute initRouter "/".toList 0 none)
        "/a".toList 1 none) "/a/:id".toList 2 none) "/a/5".toList).1.routes.map
      (fun p => p.2.active) = [true, true, true] := by
  refine ⟨?_, ?_, ?_, by decide, by decide, by decide⟩
  · rw [dispatchAll, dispatchPass_trace loc s.sortedRoutes.length 0 s (by omega)]
    rfl
  · rw [dispatchAll]
    exact dispatchPass_entry loc key r s.sortedRoutes.length 0 s (by omega) hnd
      (by simpa using hmem) hlook
  · cases h : regexExec r.routeRegex loc <;> simp [Route.dispatch, h]

/-- C6 witness: the three-route example, instantiating the universally
quantified part at the route "/". -/
theorem c6_witness :
    (dispatchAll (addRoute (addRoute (addRoute initRouter "/".toList 0 none)
        "/a".toList 1 none) "/a/:id".toList 2 none) "/a/5".toList).2 =
      ["/".toList, "/a".toList, "/a/:id".toList] := by
  have h := c6_dispatchAll_every_route
    (addRoute (addRoute (addRoute initRouter "/".toList 0 none) "/a".toList 1
      none) "/a/:id".toList 2 none)
    "/a/5".toList "/".toList ((mkRoute "/".toList).addHandler 0 false)
    (by decide) (by decide) (by decide)
  exact h.2.2.2.2.1

/-- C7: starting from a router with no pending suppression, a silent
setRoute whose reconciled target differs from the current location raises
the suppress counter to exactly one and writes the target hash; the next
committed notification updates location and args, consumes the suppression
(counter back to 0) and dispatches no route; and the notification after
that dispatches normally (its trace is the whole order array). -/
theorem c7_silent_suppresses_one (s : RouterState) (t target : JStr)
    (htarget : target = realLocation t (jsDefault s.location))
    (h0 : s.ignoreHashchangeEvent = 0)
    (h1 : ¬ target = s.location)
    (h2 : realLocation target (jsDefault s.location) = target)
    (h3 : realLocation target (jsDefault target) = target) :
    (setRoute s t true).ignoreHashchangeEvent = 1 ∧
    (setRoute s t true).hash = target ∧
    (onLocationChanged (setRoute s t true)).1.location = target ∧
    (onLocationChanged (setRoute s t true)).1.args = jsSplit '/' target ∧
    (onLocationChanged (setRoute s t true)).1.ignoreHashchangeEvent = 0 ∧
    (onLocationChanged (setRoute s t true)).2 = [] ∧
    (onLocationChanged (onLocationChanged (setRoute s t true)).1).2 =
      (onLocationChanged (setRoute s t true)).1.sortedRoutes := by
  have e1 : setRoute s t true =
      { s with ignoreHashchangeEvent := s.ignoreHashchangeEvent + 1,
               hash := target } := by
    rw [setRoute, if_neg (fun e => h1 (htarget.trans e))]
    rw [htarget]
    rfl
  have e2 : onLocationChanged (setRoute s t true) =
      ({ s with ignoreHashchangeEvent := s.ignoreHashchangeEvent,
                hash := target, location := target,
                args := jsSplit '/' target }, []) := by
    rw [e1, onLocationChanged]
    simp only [h2, ne_eq, not_true_eq_false, if_false, reduceIte]
    rw [if_pos (by omega)]
    rfl
  have e3 : (onLocationChanged (setRoute s t true)).1 =
      { s with ignoreHashchangeEvent := s.ignoreHashchangeEvent,
               hash := target, location := target,
               args := jsSplit '/' target } := by rw [e2]
  refine ⟨by rw [e1, h0], by rw [e1], by rw [e3], by rw [e3],
    by rw [e3, h0], by rw [e2], ?_⟩
  rw [e3, onLocationChanged]
  simp only [h3, ne_eq, not_true_eq_false, if_false, reduceIte]
  rw [if_neg (by rw [h0]; omega)]
  rw [dispatchAll, dispatchPass_trace target _ 0 _ (by omega)]
  rfl

/-- C7 witness: one registered route "x", silent navigation from the empty
location to "x". -/
theorem c7_witness :
    (setRoute (addRoute initRouter "x".toList 5 none) "x".toList
      true).ignoreHashchangeEvent = 1 ∧
    (onLocationChanged (onLocationChanged (setRoute
      (addRoute initRouter "x".toList 5 none) "x".toList true)).1).2 =
      ["x".toList] := by
  have h := c7_silent_suppresses_one (addRoute initRouter "x".toList 5 none)
    "x".toList "x".toList (by decide) (by decide) (by decide) (by decide)
    (by decide)
  exact ⟨h.1, h.2.2.2.2.2.2.trans (by decide)⟩

theorem compile_params_eq_spec :
    ∀ fuel l, (compileAuxF fuel l).2 = specParamTokensF fuel l := by
  intro fuel l
  induction fuel, l using compileAuxF.induct with
  | case1 l => rfl
  | case2 n => rfl
  | case3 fuel rest name hn ih =>
    rw [compileAuxF, specParamTokensF]
    simp only [if_pos hn]
    exact ih
  | case4 fuel rest name hn ih =>
    rw [compileAuxF, specParamTokensF]
    simp only [if_neg hn]
    rw [ih]
  | case5 fuel c rest hc ih =>
    rw [compileAuxF_cons fuel c rest (fun e => hc e),
      specParamTokensF_cons fuel c rest (fun e => hc e)]
    exact ih

/-- Whether a regex token is a capture group. -/
def isParamTok : RTok → Bool
  | .param => true
  | _ => false

/-- The number of capture groups of a token list. -/
def paramCount (l : List RTok) : Nat := (l.filter isParamTok).length

theorem tryParam_length (g : JStr → Option (List JStr)) (m : Nat)
    (hg : ∀ ds caps, g ds = some caps → caps.length = m) :
    ∀ n ds caps, tryParam g ds n = some caps → caps.length = m + 1 := by
  intro n
  induction n with
  | zero => intro ds caps h; exact absurd h (by rw [tryParam]; simp)
  | succ k ih =>
    intro ds caps h
    rw [tryParam] at h
    cases hc : g (ds.drop (k + 1)) with
    | none => rw [hc] at h; exact ih ds caps h
    | some cs =>
      rw [hc] at h
      have : ds.take (k + 1) :: cs = caps := by
        simpa using h
      rw [← this, List.length_cons, hg _ _ hc]

theorem matchToks_length :
    ∀ (toks : List RTok) (ds : JStr) (caps : List JStr),
      matchToks toks ds = some caps → caps.length = paramCount toks := by
  intro toks
  induction toks with
  | nil =>
    intro ds caps h
    rw [matchToks] at h
    simp at h
    subst h
    rfl
  | cons t ts ih =>
    cases t with
    | lit c =>
      intro ds caps h
      match ds with
      | [] =>
        have h' : (none : Option (List JStr)) = some caps := h
        exact absurd h' (by simp)
      | d :: ds' =>
        have h' : (if d = c then matchToks ts ds' else none) = some caps := h
        by_cases hd : d = c
        · rw [if_pos hd] at h'
          rw [ih ds' caps h']
          simp [paramCount, isParamTok]
        · rw [if_neg hd] at h'
          exact absurd h' (by simp)
    | any =>
      intro ds caps h
      match ds with
      | [] =>
        have h' : (none : Option (List JStr)) = some caps := h
        exact absurd h' (by simp)
      | d :: ds' =>
        have h' : (if jsDotExcluded d = true then none else matchToks ts ds') =
            some caps := h
        by_cases hd : jsDotExcluded d = true
        · rw [if_pos hd] at h'
          exact absurd h' (by simp)
        · rw [if_neg hd] at h'
          rw [ih ds' caps h']
          simp [paramCount, isParamTok]
    | param =>
      intro ds caps h
      have h' : tryParam (matchToks ts) ds
          (ds.takeWhile (fun c => c ≠ '/')).length = some caps := h
      have := tryParam_length (matchToks ts) (paramCount ts) (ih) _ ds caps h'
      rw [this]
      simp [paramCount, isParamTok]

theorem parseRegex_grp (s : JStr) :
    parseRegex (grpChars ++ s) = .param :: parseRegex s := rfl

theorem noHash_strip : ∀ l : JStr, (∀ c ∈ l, ¬ c = '#') → stripHashes l = l := by
  intro l
  induction l using stripHashes.induct with
  | case1 => intro _; rfl
  | case2 c => intro _; rfl
  | case3 c1 c2 t hh ih =>
    intro h
    exact absurd hh.1 (h c1 (List.mem_cons_self _ _))
  | case4 c1 c2 t hh ih =>
    intro h
    rw [stripHashes, if_neg hh, ih (fun c hc => h c (List.mem_cons_of_mem _ hc))]

theorem compile_noHash :
    ∀ fuel l, (∀ c ∈ l, ¬ c = '#') →
      ∀ c ∈ (compileAuxF fuel l).1, ¬ c = '#' := by
  intro fuel l
  induction fuel, l using compileAuxF.induct with
  | case1 l => intro h; exact h
  | case2 n => intro _ c hc; exact absurd hc (List.not_mem_nil c)
  | case3 fuel rest name hn ih =>
    intro h c hc
    rw [compileAuxF] at hc
    simp only [if_pos hn] at hc
    rcases List.mem_cons.mp hc with e | e
    · subst e; decide
    · exact ih (fun x hx => h x (List.mem_cons_of_mem _ hx)) c e
  | case4 fuel rest name hn ih =>
    intro h c hc
    rw [compileAuxF] at hc
    simp only [if_neg hn] at hc
    rcases List.mem_append.mp hc with e | e
    · simp only [grpChars, List.mem_cons, List.not_mem_nil, or_false] at e
      rcases e with e | e | e | e | e | e | e <;> (subst e; decide)
    · exact ih (fun x hx => h x (List.mem_cons_of_mem _
        (List.drop_subset _ _ hx))) c e
  | case5 fuel c0 rest hc0 ih =>
    intro h c hc
    rw [compileAuxF_cons fuel c0 rest (fun e => hc0 e)] at hc
    rcases List.mem_cons.mp hc with e | e
    · rw [e]; exact h c0 (List.mem_cons_self _ _)
    · exact ih (fun x hx => h x (List.mem_cons_of_mem _ hx)) c e

theorem paramCount_lit (c : Char) (ts : List RTok) :
    paramCount (.lit c :: ts) = paramCount ts := by
  simp [paramCount, isParamTok]

theorem paramCount_param (ts : List RTok) :
    paramCount (.param :: ts) = paramCount ts + 1 := by
  simp [paramCount, isParamTok]

theorem paramCount_lits : ∀ l : JStr, paramCount (l.map RTok.lit) = 0 := by
  intro l
  induction l with
  | nil => rfl
  | cons c rest ih => rw [List.map_cons, paramCount_lit]; exact ih

theorem compile_paramCount :
    ∀ fuel l, (∀ c ∈ l, plainChar c = true) →
      paramCount (parseRegex (compileAuxF fuel l).1) =
        (compileAuxF fuel l).2.length := by
  intro fuel l
  induction fuel, l using compileAuxF.induct with
  | case1 l =>
    intro h
    show paramCount (parseRegex l) = ([] : List JStr).length
    rw [parseRegex_all_lit l h, paramCount_lits]
    rfl
  | case2 n => intro _; rfl
  | case3 fuel rest name hn ih =>
    intro h
    rw [compileAuxF]
    simp only [if_pos hn]
    rw [parseRegex_cons_lit ':' _ (by decide) (by decide), paramCount_lit]
    exact ih (fun x hx => h x (List.mem_cons_of_mem _ hx))
  | case4 fuel rest name hn ih =>
    intro h
    rw [compileAuxF]
    simp only [if_neg hn]
    rw [parseRegex_grp, paramCount_param, List.length_cons]
    rw [ih (fun x hx => h x (List.mem_cons_of_mem _ (List.drop_subset _ _ hx)))]
  | case5 fuel c0 rest hc0 ih =>
    intro h
    rw [compileAuxF_cons fuel c0 rest (fun e => hc0 e)]
    have hp := h c0 (List.mem_cons_self _ _)
    rw [plainChar] at hp
    simp only [Bool.not_eq_true'] at hp
    rw [parseRegex_cons_lit c0 _ (by intro e; subst e; simp at hp)
      (by intro e; subst e; simp at hp), paramCount_lit]
    exact ih (fun x hx => h x (List.mem_cons_of_mem _ hx))

/-- C9: for every pattern the compiled parameter-name list equals the
`:name` tokens of the pattern in left-to-right order of appearance
(first conjunct, no restriction on names or duplication); and for patterns
within the documented grammar (characters without regex meaning, no '#')
a successful match carries as many captures as parameters and the routed
event passes the arguments record pairing each parameter name with the
capture at the same position. -/
theorem c9_param_order_and_args (P L : JStr) (caps : List JStr)
    (hplain : ∀ c ∈ P, plainChar c = true ∧ ¬ c = '#')
    (hmatch : regexExec (mkRoute P).routeRegex L = some caps) :
    (mkRoute P).params = specParamTokens P ∧
    caps.length = (mkRoute P).params.length ∧
    ((mkRoute P).dispatch L).2.2 =
      [{ name := "routed", args := (mkRoute P).params.zip caps }] := by
  have hp1 : (mkRoute P).params = specParamTokens P :=
    compile_params_eq_spec P.length P
  have hnohash : ∀ c ∈ (compileAuxF P.length P).1, ¬ c = '#' :=
    compile_noHash P.length P (fun c hc => (hplain c hc).2)
  have hstrip : stripHashes (compileAuxF P.length P).1 =
      (compileAuxF P.length P).1 := noHash_strip _ hnohash
  have hexec : regexExec (mkRoute P).routeRegex L =
      matchToks (parseRegex (compileAuxF P.length P).1) L := by
    show matchToks (parseRegex (('^' :: stripHashes
      (compileAuxF P.length P).1).drop 1)) L = _
    rw [List.drop_succ_cons, List.drop_zero, hstrip]
  refine ⟨hp1, ?_, ?_⟩
  · rw [matchToks_length _ _ _ (hexec ▸ hmatch)]
    show paramCount (parseRegex (compileAuxF P.length P).1) =
      (compileAuxF P.length P).2.length
    exact compile_paramCount P.length P (fun c hc => (hplain c hc).1)
  · rw [Route.dispatch, hmatch]

/-- C9 witness: pattern "a/:id/:x!" against location "a/7/q". -/
theorem c9_witness :
    ((mkRoute "a/:id/:x!".toList).dispatch "a/7/q".toList).2.2 =
      [{ name := "routed",
         args := [("id".toList, "7".toList), ("x!".toList, "q".toList)] }] ∧
    (mkRoute "a/:id/:x!".toList).params = specParamTokens "a/:id/:x!".toList := by
  have h := c9_param_order_and_args "a/:id/:x!".toList "a/7/q".toList
    ["7".toList, "q".toList] (by decide) (by decide)
  exact ⟨h.2.2.trans (by decide), h.1⟩

theorem insertByLen_perm (f : JStr → Nat) (x : JStr) :
    ∀ l, (insertByLen f x l).Perm (x :: l) := by
  intro l
  induction l with
  | nil => exact List.Perm.refl _
  | cons y ys ih =>
    rw [insertByLen]
    by_cases h : f x < f y
    · rw [if_pos h]
    · rw [if_neg h]
      exact (List.Perm.cons y ih).trans (List.Perm.swap x y ys)

theorem mem_insertByLen (f : JStr → Nat) (x y : JStr) (l : List JStr) :
    y ∈ insertByLen f x l ↔ y = x ∨ y ∈ l := by
  rw [(insertByLen_perm f x l).mem_iff, List.mem_cons]

theorem insertByLen_congr (f g : JStr → Nat) (x : JStr) :
    ∀ l, f x = g x → (∀ y ∈ l, f y = g y) →
      insertByLen f x l = insertByLen g x l := by
  intro l
  induction l with
  | nil => intro _ _; rfl
  | cons y ys ih =>
    intro hx hl
    rw [insertByLen, insertByLen, hx, hl y (List.mem_cons_self _ _)]
    by_cases h : g x < g y
    · rw [if_pos h, if_pos h]
    · rw [if_neg h, if_neg h,
        ih hx (fun z hz => hl z (List.mem_cons_of_mem _ hz))]

theorem insertByLen_sorted (f : JStr → Nat) (x : JStr) :
    ∀ l, l.Pairwise (fun a b => f a ≤ f b) →
      (insertByLen f x l).Pairwise (fun a b => f a ≤ f b) := by
  intro l
  induction l with
  | nil => intro _; exact List.pairwise_singleton _ _
  | cons y ys ih =>
    intro hp
    rw [List.pairwise_cons] at hp
    rw [insertByLen]
    by_cases h : f x < f y
    · rw [if_pos h]
      rw [List.pairwise_cons]
      constructor
      · intro z hz
        rcases List.mem_cons.mp hz with e | e
        · exact e ▸ le_of_lt h
        · exact le_trans (le_of_lt h) (hp.1 z e)
      · exact List.pairwise_cons.mpr hp
    · rw [if_neg h]
      rw [List.pairwise_cons]
      constructor
      · intro z hz
        rcases (mem_insertByLen f x z ys).mp hz with e | e
        · exact e ▸ le_of_not_lt h
        · exact hp.1 z e
      · exact ih hp.2

theorem insertByLen_top (f : JStr → Nat) (x : JStr) :
    ∀ l, (∀ y ∈ l, f y ≤ f x) → insertByLen f x l = l ++ [x] := by
  intro l
  induction l with
  | nil => intro _; rfl
  | cons y ys ih =>
    intro h
    rw [insertByLen,
      if_neg (not_lt_of_le (h y (List.mem_cons_self _ _))),
      ih (fun z hz => h z (List.mem_cons_of_mem _ hz))]
    rfl

theorem foldl_insert_perm (f : JStr → Nat) :
    ∀ (l acc : List JStr),
      (List.foldl (fun acc x => insertByLen f x acc) acc l).Perm (acc ++ l) := by
  intro l
  induction l with
  | nil => intro acc; simp
  | cons x xs ih =>
    intro acc
    rw [List.foldl_cons]
    refine (ih (insertByLen f x acc)).trans ?_
    have h1 : (insertByLen f x acc ++ xs).Perm ((x :: acc) ++ xs) :=
      (insertByLen_perm f x acc).append_right xs
    refine h1.trans ?_
    rw [List.cons_append]
    exact List.perm_middle.symm

theorem jsStableSort_perm (f : JStr → Nat) (l : List JStr) :
    (jsStableSort f l).Perm l := by
  have := foldl_insert_perm f l []
  simpa [jsStableSort] using this

theorem foldl_insert_congr (f g : JStr → Nat) :
    ∀ (l acc : List JStr), (∀ x ∈ l, f x = g x) → (∀ y ∈ acc, f y = g y) →
      List.foldl (fun acc x => insertByLen f x acc) acc l =
        List.foldl (fun acc x => insertByLen g x acc) acc l := by
  intro l
  induction l with
  | nil => intro acc _ _; rfl
  | cons x xs ih =>
    intro acc hl hacc
    rw [List.foldl_cons, List.foldl_cons]
    rw [insertByLen_congr f g x acc (hl x (List.mem_cons_self _ _)) hacc]
    refine ih (insertByLen g x acc) (fun z hz => hl z (List.mem_cons_of_mem _ hz)) ?_
    intro y hy
    rcases (mem_insertByLen g x y acc).mp hy with e | e
    · exact e ▸ hl x (List.mem_cons_self _ _)
    · exact hacc y e

theorem jsStableSort_congr (f g : JStr → Nat) (l : List JStr)
    (h : ∀ x ∈ l, f x = g x) : jsStableSort f l = jsStableSort g l :=
  foldl_insert_congr f g l [] h (fun y hy => absurd hy (List.not_mem_nil y))

theorem foldl_insert_sorted (f : JStr → Nat) :
    ∀ (l acc : List JStr), acc.Pairwise (fun a b => f a ≤ f b) →
      (List.foldl (fun acc x => insertByLen f x acc) acc l).Pairwise
        (fun a b => f a ≤ f b) := by
  intro l
  induction l with
  | nil => intro acc h; exact h
  | cons x xs ih =>
    intro acc h
    rw [List.foldl_cons]
    exact ih _ (insertByLen_sorted f x acc h)

theorem jsStableSort_sorted (f : JStr → Nat) (l : List JStr) :
    (jsStableSort f l).Pairwise (fun a b => f a ≤ f b) :=
  foldl_insert_sorted f l [] (List.Pairwise.nil)

theorem foldl_insert_of_sorted (f : JStr → Nat) :
    ∀ (l acc : List JStr), (acc ++ l).Pairwise (fun a b => f a ≤ f b) →
      List.foldl (fun acc x => insertByLen f x acc) acc l = acc ++ l := by
  intro l
  induction l with
  | nil => intro acc _; simp
  | cons x xs ih =>
    intro acc h
    rw [List.foldl_cons]
    have hacc : ∀ y ∈ acc, f y ≤ f x := by
      intro y hy
      exact (List.pairwise_append.mp h).2.2 y hy x (List.mem_cons_self _ _)
    rw [insertByLen_top f x acc hacc]
    rw [ih (acc ++ [x]) (by simpa using h)]
    simp

theorem jsStableSort_of_sorted (f : JStr → Nat) (l : List JStr)
    (h : l.Pairwise (fun a b => f a ≤ f b)) : jsStableSort f l = l := by
  have := foldl_insert_of_sorted f l [] (by simpa using h)
  simpa [jsStableSort] using this

theorem jsStableSort_idem (f : JStr → Nat) (l : List JStr) :
    jsStableSort f (jsStableSort f l) = jsStableSort f l :=
  jsStableSort_of_sorted f _ (jsStableSort_sorted f l)

theorem jsStableSort_append (f : JStr → Nat) (l m : List JStr) :
    jsStableSort f (l ++ m) =
      List.foldl (fun acc x => insertByLen f x acc) (jsStableSort f l) m := by
  rw [jsStableSort, List.foldl_append]
  rfl

theorem jsStableSort_sort_append (f : JStr → Nat) (l m : List JStr) :
    jsStableSort f (jsStableSort f l ++ m) = jsStableSort f (l ++ m) := by
  rw [jsStableSort_append, jsStableSort_append, jsStableSort_idem]

theorem alookup_append_of_some (k : JStr) (r : Route) :
    ∀ (l l2 : List (JStr × Route)), alookup k l = some r →
      alookup k (l ++ l2) = some r := by
  intro l
  induction l with
  | nil => intro l2 h; exact absurd h (by rw [alookup]; simp)
  | cons p t ih =>
    intro l2 h
    rw [alookup] at h
    rw [List.cons_append, alookup]
    by_cases hp : p.1 = k
    · rw [if_pos hp] at h ⊢; exact h
    · rw [if_neg hp] at h ⊢; exact ih l2 h

theorem alookup_append_of_none (k : JStr) :
    ∀ (l l2 : List (JStr × Route)), alookup k l = none →
      alookup k (l ++ l2) = alookup k l2 := by
  intro l
  induction l with
  | nil => intro l2 _; rfl
  | cons p t ih =>
    intro l2 h
    rw [alookup] at h
    rw [List.cons_append, alookup]
    by_cases hp : p.1 = k
    · rw [if_pos hp] at h; exact absurd h (by simp)
    · rw [if_neg hp] at h ⊢; exact ih l2 h

theorem updateAssoc_keys (l : List (JStr × Route)) (k : JStr) (f : Route → Route) :
    (updateAssoc l k f).map Prod.fst = l.map Prod.fst := by
  induction l with
  | nil => rfl
  | cons p t ih =>
    rw [updateAssoc, List.map_cons, List.map_cons, List.map_cons]
    by_cases hp : p.1 = k
    · rw [if_pos hp]
      show p.1 :: (updateAssoc t k f).map Prod.fst = _
      rw [ih]
    · rw [if_neg hp]
      show p.1 :: (updateAssoc t k f).map Prod.fst = _
      rw [ih]

theorem alookup_isSome_of_mem (k : JStr) :
    ∀ l : List (JStr × Route), k ∈ l.map Prod.fst →
      ∃ r, alookup k l = some r := by
  intro l
  induction l with
  | nil => intro h; exact absurd h (by simp)
  | cons p t ih =>
    intro h
    rw [alookup]
    by_cases hp : p.1 = k
    · exact ⟨p.2, by rw [if_pos hp]⟩
    · rw [List.map_cons, List.mem_cons] at h
      rcases h with e | e
      · exact absurd e.symm hp
      · rw [if_neg hp]
        exact ih e

theorem addHandler_routeRegex (r : Route) (h : Nat) (u : Bool) :
    (r.addHandler h u).routeRegex = r.routeRegex := by
  rw [Route.addHandler]
  by_cases hu : u = true
  · rw [if_pos hu]
  · rw [if_neg hu]

theorem removeHandler_routeRegex (r : Route) (h : Nat) (u : Bool) :
    (r.removeHandler h u).routeRegex = r.routeRegex := by
  rw [Route.removeHandler]
  by_cases hu : u = true
  · rw [if_pos hu]
  · rw [if_neg hu]

/-- The registration-phase invariant of the route table: the order array is
the stable sort of the keys in insertion order by compiled-regex length,
and every stored entry carries the compiled regex of its own key. -/
def TableInv (s : RouterState) : Prop :=
  s.sortedRoutes = jsStableSort rlen (s.routes.map Prod.fst) ∧
  ∀ p r, alookup p s.routes = some r → r.routeRegex = (mkRoute p).routeRegex

theorem lenOf_eq_rlen (routes : List (JStr × Route))
    (h2 : ∀ p r, alookup p routes = some r → r.routeRegex = (mkRoute p).routeRegex)
    (k : JStr) (hk : k ∈ routes.map Prod.fst) : lenOf routes k = rlen k := by
  rcases alookup_isSome_of_mem k routes hk with ⟨r, hr⟩
  rw [lenOf, hr]
  show r.routeRegex.length = rlen k
  rw [h2 k r hr, rlen]

theorem updateAssoc_inv2 (routes : List (JStr × Route)) (k : JStr)
    (f : Route → Route) (hf : ∀ r, (f r).routeRegex = r.routeRegex)
    (h2 : ∀ p r, alookup p routes = some r → r.routeRegex = (mkRoute p).routeRegex) :
    ∀ p r, alookup p (updateAssoc routes k f) = some r →
      r.routeRegex = (mkRoute p).routeRegex := by
  intro p r hr
  by_cases hp : k = p
  · subst hp
    rw [alookup_update_self] at hr
    cases ho : alookup k routes with
    | none => rw [ho] at hr; exact absurd hr (by simp)
    | some r0 =>
      rw [ho] at hr
      have : f r0 = r := by simpa using hr
      rw [← this, hf r0]
      exact h2 k r0 ho
  · rw [alookup_update_ne routes p k f hp] at hr
    exact h2 p r hr

theorem addHandlerTo_inv (s : RouterState) (route : JStr) (h : Nat) (u : Bool)
    (hs : TableInv s) : TableInv (addHandlerTo s route h u) := by
  refine ⟨?_, ?_⟩
  · show s.sortedRoutes = jsStableSort rlen
      ((updateAssoc s.routes route (fun r => r.addHandler h u)).map Prod.fst)
    rw [updateAssoc_keys]
    exact hs.1
  · show ∀ p r,
      alookup p (updateAssoc s.routes route (fun r => r.addHandler h u)) =
        some r → r.routeRegex = (mkRoute p).routeRegex
    exact updateAssoc_inv2 s.routes route _
      (fun r => addHandler_routeRegex r h u) hs.2

theorem addRoute_create_inv (s : RouterState) (route : JStr)
    (hs : TableInv s) (hx : alookup route s.routes = none) :
    TableInv { s with
      routes := s.routes ++ [(route, mkRoute route)],
      sortedRoutes := jsStableSort (lenOf (s.routes ++ [(route, mkRoute route)]))
        (s.sortedRoutes ++ [route]) } := by
  have hinv2 : ∀ p r, alookup p (s.routes ++ [(route, mkRoute route)]) = some r →
      r.routeRegex = (mkRoute p).routeRegex := by
    intro p r hr
    cases ho : alookup p s.routes with
    | some r1 =>
      rw [alookup_append_of_some p r1 s.routes _ ho] at hr
      exact (Option.some_inj.mp hr) ▸ hs.2 p r1 ho
    | none =>
      rw [alookup_append_of_none p s.routes _ ho] at hr
      rw [alookup] at hr
      by_cases hp : route = p
      · rw [if_pos hp] at hr
        have : mkRoute route = r := by simpa using hr
        rw [← this, ← hp]
      · rw [if_neg hp] at hr
        exact absurd hr (by rw [alookup]; simp)
  have hkeys : (s.routes ++ [(route, mkRoute route)]).map Prod.fst =
      s.routes.map Prod.fst ++ [route] := by
    rw [List.map_append]
    rfl
  have hmem : ∀ x ∈ s.sortedRoutes ++ [route],
      lenOf (s.routes ++ [(route, mkRoute route)]) x = rlen x := by
    intro x hx2
    refine lenOf_eq_rlen _ hinv2 x ?_
    rw [hkeys]
    rcases List.mem_append.mp hx2 with e | e
    · refine List.mem_append_left _ ?_
      have : x ∈ jsStableSort rlen (s.routes.map Prod.fst) := hs.1 ▸ e
      exact (jsStableSort_perm rlen _).subset this
    · exact List.mem_append_right _ e
  refine ⟨?_, hinv2⟩
  show jsStableSort (lenOf (s.routes ++ [(route, mkRoute route)]))
      (s.sortedRoutes ++ [route]) = _
  rw [jsStableSort_congr _ rlen _ hmem, hkeys]
  show _ = jsStableSort rlen (s.routes.map Prod.fst ++ [route])
  rw [hs.1, jsStableSort_sort_append]

theorem addRoute_inv (s : RouterState) (route : JStr) (h : Nat) (hu : Option Nat)
    (hs : TableInv s) : TableInv (addRoute s route h hu) := by
  cases hu with
  | some huv =>
    cases hx : alookup route s.routes with
    | some r0 =>
      have e1 : addRoute s route h (some huv) =
          addHandlerTo (addHandlerTo s route h false) route huv true := by
        rw [addRoute.eq_def, hx]
      rw [e1]
      exact addHandlerTo_inv _ _ _ _ (addHandlerTo_inv _ _ _ _ hs)
    | none =>
      have e1 : addRoute s route h (some huv) =
          addHandlerTo (addHandlerTo { s with
            routes := s.routes ++ [(route, mkRoute route)],
            sortedRoutes := jsStableSort
              (lenOf (s.routes ++ [(route, mkRoute route)]))
              (s.sortedRoutes ++ [route]) } route h false) route huv true := by
        rw [addRoute.eq_def, hx]
      rw [e1]
      exact addHandlerTo_inv _ _ _ _
        (addHandlerTo_inv _ _ _ _ (addRoute_create_inv s route hs hx))
  | none =>
    cases hx : alookup route s.routes with
    | some r0 =>
      have e1 : addRoute s route h none =
          addHandlerTo s route h false := by
        rw [addRoute.eq_def, hx]
      rw [e1]
      exact addHandlerTo_inv _ _ _ _ hs
    | none =>
      have e1 : addRoute s route h none =
          addHandlerTo { s with
            routes := s.routes ++ [(route, mkRoute route)],
            sortedRoutes := jsStableSort
              (lenOf (s.routes ++ [(route, mkRoute route)]))
              (s.sortedRoutes ++ [route]) } route h false := by
        rw [addRoute.eq_def, hx]
      rw [e1]
      exact addHandlerTo_inv _ _ _ _ (addRoute_create_inv s route hs hx)

theorem addHandlerTo_keys (s : RouterState) (route : JStr) (h : Nat) (u : Bool) :
    (addHandlerTo s route h u).routes.map Prod.fst = s.routes.map Prod.fst := by
  show (updateAssoc s.routes route (fun r => r.addHandler h u)).map Prod.fst = _
  exact updateAssoc_keys _ _ _

theorem addHandlerTo_inv2 (s : RouterState) (route : JStr) (h : Nat) (u : Bool)
    (h2 : ∀ p r, alookup p s.routes = some r → r.routeRegex = (mkRoute p).routeRegex) :
    ∀ p r, alookup p (addHandlerTo s route h u).routes = some r →
      r.routeRegex = (mkRoute p).routeRegex :=
  updateAssoc_inv2 s.routes route _ (fun r => addHandler_routeRegex r h u) h2

theorem append_new_inv2 (routes : List (JStr × Route)) (route : JStr)
    (h2 : ∀ p r, alookup p routes = some r → r.routeRegex = (mkRoute p).routeRegex) :
    ∀ p r, alookup p (routes ++ [(route, mkRoute route)]) = some r →
      r.routeRegex = (mkRoute p).routeRegex := by
  intro p r hr
  cases ho : alookup p routes with
  | some r1 =>
    rw [alookup_append_of_some p r1 routes _ ho] at hr
    exact (Option.some_inj.mp hr) ▸ h2 p r1 ho
  | none =>
    rw [alookup_append_of_none p routes _ ho] at hr
    rw [alookup] at hr
    by_cases hp : route = p
    · rw [if_pos hp] at hr
      have : mkRoute route = r := by simpa using hr
      rw [← this, ← hp]
    · rw [if_neg hp] at hr
      exact absurd hr (by rw [alookup]; simp)

theorem addRoutesLoop_spec :
    ∀ (m : List (JStr × Nat)) (s : RouterState),
      (∀ p r, alookup p s.routes = some r → r.routeRegex = (mkRoute p).routeRegex) →
      ∃ ks : List JStr,
        (addRoutesLoop s m).routes.map Prod.fst = s.routes.map Prod.fst ++ ks ∧
        (addRoutesLoop s m).sortedRoutes = s.sortedRoutes ++ ks ∧
        (∀ p r, alookup p (addRoutesLoop s m).routes = some r →
          r.routeRegex = (mkRoute p).routeRegex) := by
  intro m
  induction m with
  | nil =>
    intro s h2
    exact ⟨[], by rw [addRoutesLoop]; simp, by rw [addRoutesLoop]; simp, h2⟩
  | cons ph rest ih =>
    obtain ⟨p, h⟩ := ph
    intro s h2
    cases hx : alookup p s.routes with
    | some r0 =>
      have e1 : addRoutesLoop s ((p, h) :: rest) =
          addRoutesLoop (addHandlerTo s p h false) rest := by
        rw [addRoutesLoop, hx]
      rcases ih (addHandlerTo s p h false)
        (addHandlerTo_inv2 s p h false h2) with ⟨ks, e2, e3, e4⟩
      refine ⟨ks, ?_, ?_, ?_⟩
      · rw [e1, e2, addHandlerTo_keys]
      · rw [e1, e3]; rfl
      · rw [e1]; exact e4
    | none =>
      have e1 : addRoutesLoop s ((p, h) :: rest) =
          addRoutesLoop (addHandlerTo { s with
            routes := s.routes ++ [(p, mkRoute p)],
            sortedRoutes := s.sortedRoutes ++ [p] } p h false) rest := by
        rw [addRoutesLoop, hx]
      have hinv1 : ∀ q r, alookup q ({ s with
            routes := s.routes ++ [(p, mkRoute p)],
            sortedRoutes := s.sortedRoutes ++ [p] } : RouterState).routes = some r →
          r.routeRegex = (mkRoute q).routeRegex :=
        append_new_inv2 s.routes p h2
      rcases ih _ (addHandlerTo_inv2 _ p h false hinv1) with ⟨ks, e2, e3, e4⟩
      refine ⟨p :: ks, ?_, ?_, ?_⟩
      · rw [e1, e2, addHandlerTo_keys]
        show (s.routes ++ [(p, mkRoute p)]).map Prod.fst ++ ks = _
        rw [List.map_append]
        simp
      · rw [e1, e3]
        show (s.sortedRoutes ++ [p]) ++ ks = _
        simp
      · rw [e1]; exact e4

theorem addRoutes_inv (s : RouterState) (m : List (JStr × Nat))
    (hs : TableInv s) : TableInv (addRoutes s m) := by
  rcases addRoutesLoop_spec m s hs.2 with ⟨ks, e2, e3, e4⟩
  refine ⟨?_, e4⟩
  show jsStableSort (lenOf (addRoutesLoop s m).routes)
      (addRoutesLoop s m).sortedRoutes =
    jsStableSort rlen ((addRoutesLoop s m).routes.map Prod.fst)
  have hmem : ∀ x ∈ (addRoutesLoop s m).sortedRoutes,
      lenOf (addRoutesLoop s m).routes x = rlen x := by
    intro x hx
    refine lenOf_eq_rlen _ e4 x ?_
    rw [e3] at hx
    rw [e2]
    rcases List.mem_append.mp hx with e | e
    · refine List.mem_append_left _ ?_
      have : x ∈ jsStableSort rlen (s.routes.map Prod.fst) := hs.1 ▸ e
      exact (jsStableSort_perm rlen _).subset this
    · exact List.mem_append_right _ e
  rw [jsStableSort_congr _ rlen _ hmem, e3, e2, hs.1, jsStableSort_sort_append]

theorem removeRoute_structural (s : RouterState) (p : JStr) (h : Nat)
    (hu : Option Nat) :
    (removeRoute s p h hu).routes.map Prod.fst = s.routes.map Prod.fst ∧
    (removeRoute s p h hu).sortedRoutes = s.sortedRoutes := by
  cases hx : alookup p s.routes with
  | none =>
    have e1 : removeRoute s p h hu = s := by rw [removeRoute.eq_def, hx]
    rw [e1]
    exact ⟨rfl, rfl⟩
  | some r0 =>
    cases hu with
    | some huv =>
      have e1 : removeRoute s p h (some huv) = { s with routes :=
          (updateAssoc (updateAssoc s.routes p (fun r => r.removeHandler h false))
            p (fun r => r.removeHandler huv true)) } := by
        rw [removeRoute.eq_def, hx]
      rw [e1]
      refine ⟨?_, rfl⟩
      show (updateAssoc (updateAssoc s.routes p (fun r => r.removeHandler h false))
          p (fun r => r.removeHandler huv true)).map Prod.fst = s.routes.map Prod.fst
      rw [updateAssoc_keys, updateAssoc_keys]
    | none =>
      have e1 : removeRoute s p h none = { s with routes :=
          (updateAssoc s.routes p (fun r => r.removeHandler h false)) } := by
        rw [removeRoute.eq_def, hx]
      rw [e1]
      refine ⟨?_, rfl⟩
      show (updateAssoc s.routes p (fun r => r.removeHandler h false)).map
          Prod.fst = s.routes.map Prod.fst
      rw [updateAssoc_keys]

theorem removeRoute_inv (s : RouterState) (p : JStr) (h : Nat) (hu : Option Nat)
    (hs : TableInv s) : TableInv (removeRoute s p h hu) := by
  cases hx : alookup p s.routes with
  | none =>
    have e1 : removeRoute s p h hu = s := by rw [removeRoute.eq_def, hx]
    rw [e1]
    exact hs
  | some r0 =>
    cases hu with
    | some huv =>
      have e1 : removeRoute s p h (some huv) = { s with routes :=
          (updateAssoc (updateAssoc s.routes p (fun r => r.removeHandler h false))
            p (fun r => r.removeHandler huv true)) } := by
        rw [removeRoute.eq_def, hx]
      rw [e1]
      refine ⟨?_, ?_⟩
      · show s.sortedRoutes = jsStableSort rlen
          ((updateAssoc (updateAssoc s.routes p (fun r => r.removeHandler h false))
            p (fun r => r.removeHandler huv true)).map Prod.fst)
        rw [updateAssoc_keys, updateAssoc_keys]
        exact hs.1
      · exact updateAssoc_inv2 _ p _ (fun r => removeHandler_routeRegex r huv true)
          (updateAssoc_inv2 _ p _ (fun r => removeHandler_routeRegex r h false) hs.2)
    | none =>
      have e1 : removeRoute s p h none = { s with routes :=
          (updateAssoc s.routes p (fun r => r.removeHandler h false)) } := by
        rw [removeRoute.eq_def, hx]
      rw [e1]
      refine ⟨?_, ?_⟩
      · show s.sortedRoutes = jsStableSort rlen
          ((updateAssoc s.routes p (fun r => r.removeHandler h false)).map Prod.fst)
        rw [updateAssoc_keys]
        exact hs.1
      · exact updateAssoc_inv2 _ p _
          (fun r => removeHandler_routeRegex r h false) hs.2

theorem removeRoutes_structural :
    ∀ (m : List (JStr × Nat)) (s : RouterState),
      (removeRoutes s m).routes.map Prod.fst = s.routes.map Prod.fst ∧
      (removeRoutes s m).sortedRoutes = s.sortedRoutes := by
  intro m
  induction m with
  | nil => intro s; exact ⟨rfl, rfl⟩
  | cons ph rest ih =>
    obtain ⟨p, h⟩ := ph
    intro s
    cases hx : alookup p s.routes with
    | none =>
      have e1 : removeRoutes s ((p, h) :: rest) = removeRoutes s rest := by
        rw [removeRoutes, hx]
      rw [e1]
      exact ih s
    | some r0 =>
      have e1 : removeRoutes s ((p, h) :: rest) = removeRoutes { s with
          routes := (updateAssoc s.routes p (fun r => r.removeHandler h false)) }
          rest := by
        rw [removeRoutes, hx]
      rw [e1]
      rcases ih { s with routes :=
          (updateAssoc s.routes p (fun r => r.removeHandler h false)) } with ⟨e2, e3⟩
      refine ⟨?_, e3⟩
      rw [e2]
      show (updateAssoc s.routes p (fun r => r.removeHandler h false)).map
          Prod.fst = s.routes.map Prod.fst
      rw [updateAssoc_keys]

theorem removeRoutes_inv :
    ∀ (m : List (JStr × Nat)) (s : RouterState),
      TableInv s → TableInv (removeRoutes s m) := by
  intro m
  induction m with
  | nil => intro s hs; exact hs
  | cons ph rest ih =>
    obtain ⟨p, h⟩ := ph
    intro s hs
    cases hx : alookup p s.routes with
    | none =>
      have e1 : removeRoutes s ((p, h) :: rest) = removeRoutes s rest := by
        rw [removeRoutes, hx]
      rw [e1]
      exact ih s hs
    | some r0 =>
      have e1 : removeRoutes s ((p, h) :: rest) = removeRoutes { s with
          routes := (updateAssoc s.routes p (fun r => r.removeHandler h false)) }
          rest := by
        rw [removeRoutes, hx]
      rw [e1]
      refine ih _ ⟨?_, ?_⟩
      · show s.sortedRoutes = jsStableSort rlen
          ((updateAssoc s.routes p (fun r => r.removeHandler h false)).map Prod.fst)
        rw [updateAssoc_keys]
        exact hs.1
      · exact updateAssoc_inv2 _ p _
          (fun r => removeHandler_routeRegex r h false) hs.2

/-- C5: after every sequence of addRoute / addRoutes / removeRoute /
removeRoutes operations on the initial router, the order array equals the
stable sort of the entry-map keys (taken in insertion order) by ascending
compiled-regex length — hence it is a permutation of the keys, sorted
ascending, with ties left in original insertion order — and the remove
operations never change the key set or the order array, even when they
empty the handler lists. -/
theorem c5_table_invariant (ops : List TableOp) :
    (applyOps ops).sortedRoutes =
      jsStableSort rlen ((applyOps ops).routes.map Prod.fst) ∧
    (applyOps ops).sortedRoutes.Perm ((applyOps ops).routes.map Prod.fst) ∧
    (applyOps ops).sortedRoutes.Pairwise (fun a b => rlen a ≤ rlen b) ∧
    (∀ (s : RouterState) (p : JStr) (h : Nat) (hu : Option Nat),
      (removeRoute s p h hu).routes.map Prod.fst = s.routes.map Prod.fst ∧
      (removeRoute s p h hu).sortedRoutes = s.sortedRoutes) ∧
    (∀ (s : RouterState) (m : List (JStr × Nat)),
      (removeRoutes s m).routes.map Prod.fst = s.routes.map Prod.fst ∧
      (removeRoutes s m).sortedRoutes = s.sortedRoutes) := by
  have hfold : ∀ (l : List TableOp) (s : RouterState),
      TableInv s → TableInv (l.foldl applyOp s) := by
    intro l
    induction l with
    | nil => intro s hs; exact hs
    | cons op rest ih =>
      intro s hs
      rw [List.foldl_cons]
      refine ih _ ?_
      cases op with
      | add p h hu => exact addRoute_inv s p h hu hs
      | adds m => exact addRoutes_inv s m hs
      | remove p h hu => exact removeRoute_inv s p h hu hs
      | removes m => exact removeRoutes_inv m s hs
  have hinv : TableInv (applyOps ops) := by
    refine hfold ops initRouter ⟨rfl, ?_⟩
    intro p r hr
    exact absurd hr (by rw [alookup.eq_def]; simp [initRouter])
  refine ⟨hinv.1, ?_, ?_, removeRoute_structural,
    fun s m => removeRoutes_structural m s⟩
  · rw [hinv.1]
    exact jsStableSort_perm rlen _
  · rw [hinv.1]
    exact jsStableSort_sorted rlen _
